import Mathlib

/-!
# Verification of `reliability_extension.Repairable_systems`

Shallow embedding of the analysis core of `src/reliability_extension/Repairable_systems.py`
(classes `reliability_growth`, `optimal_replacement_time`, `ROCOF`, `MCF_nonparametric`),
together with proofs settling the frozen claims C1-C10.

Times and the tabular computations are modelled over `ℚ` (the Python code does exact
comparable arithmetic on the input numbers up to float rounding, which is out of scope);
the transcendental parts (normal quantile, `exp`, `log`, `sqrt`, real powers) are
modelled over `ℝ`.
-/

namespace Repairable

/-! ## Standard normal quantile (model of `scipy.stats.norm.ppf`)

The source calls `scipy.stats.norm.ppf`, an external library routine.  It is modelled
mathematically: `normCDF` is the standard normal cumulative distribution function and
`normPpf` its generalized inverse (quantile function), which agrees with the exact
inverse on the range of the CDF. -/

noncomputable def gaussPDF (x : ℝ) : ℝ := ProbabilityTheory.gaussianPDFReal 0 1 x

noncomputable def normCDF (x : ℝ) : ℝ := ∫ t in Set.Iic x, gaussPDF t

noncomputable def normPpf (p : ℝ) : ℝ := sSup {x : ℝ | normCDF x ≤ p}

lemma gaussPDF_pos (x : ℝ) : 0 < gaussPDF x :=
  ProbabilityTheory.gaussianPDFReal_pos 0 1 x one_ne_zero

lemma gaussPDF_integrable : MeasureTheory.Integrable gaussPDF :=
  ProbabilityTheory.integrable_gaussianPDFReal 0 1

lemma gaussPDF_integral_one : ∫ x, gaussPDF x = 1 :=
  ProbabilityTheory.integral_gaussianPDFReal_eq_one 0 one_ne_zero

lemma normCDF_strictMono : StrictMono normCDF := by
  intro a b hab
  have hIa : MeasureTheory.IntegrableOn gaussPDF (Set.Iic a) :=
    gaussPDF_integrable.integrableOn
  have hIb : MeasureTheory.IntegrableOn gaussPDF (Set.Iic b) :=
    gaussPDF_integrable.integrableOn
  have hkey : normCDF b - normCDF a = ∫ x in a..b, gaussPDF x :=
    intervalIntegral.integral_Iic_sub_Iic hIa hIb
  have hpos : 0 < ∫ x in a..b, gaussPDF x :=
    intervalIntegral.intervalIntegral_pos_of_pos (gaussPDF_integrable.intervalIntegrable)
      gaussPDF_pos hab
  have : 0 < normCDF b - normCDF a := hkey ▸ hpos
  linarith

lemma gaussPDF_even (x : ℝ) : gaussPDF (-x) = gaussPDF x := by
  unfold gaussPDF ProbabilityTheory.gaussianPDFReal
  norm_num

lemma normCDF_zero : normCDF 0 = 1 / 2 := by
  have hneg : (∫ x in Set.Iic (0:ℝ), gaussPDF (-x)) = ∫ x in Set.Ioi (-(0:ℝ)), gaussPDF x :=
    integral_comp_neg_Iic 0 gaussPDF
  have heven : (∫ x in Set.Iic (0:ℝ), gaussPDF (-x)) = ∫ x in Set.Iic (0:ℝ), gaussPDF x := by
    refine MeasureTheory.integral_congr_ae (Filter.EventuallyEq.of_eq ?_)
    funext x
    exact gaussPDF_even x
  have hsplit : (∫ x in Set.Iic (0:ℝ), gaussPDF x) + ∫ x in Set.Ioi (0:ℝ), gaussPDF x
      = ∫ x, gaussPDF x :=
    intervalIntegral.integral_Iic_add_Ioi gaussPDF_integrable.integrableOn
      gaussPDF_integrable.integrableOn
  have h2 : (∫ x in Set.Ioi (0:ℝ), gaussPDF x) = ∫ x in Set.Iic (0:ℝ), gaussPDF x := by
    simp only [neg_zero] at hneg
    rw [← hneg, heven]
  rw [gaussPDF_integral_one, h2] at hsplit
  unfold normCDF
  linarith

lemma normCDF_pos (x : ℝ) : 0 < normCDF x := by
  unfold normCDF
  rw [MeasureTheory.setIntegral_pos_iff_support_of_nonneg_ae
    (Filter.Eventually.of_forall fun t => (gaussPDF_pos t).le)
    gaussPDF_integrable.integrableOn]
  have hsupp : Function.support gaussPDF = Set.univ := by
    ext t
    simp [Function.support, (gaussPDF_pos t).ne']
  rw [hsupp, Set.univ_inter, Real.volume_Iic]
  norm_num

lemma normCDF_lt_one (x : ℝ) : normCDF x < 1 := by
  have hsplit : (∫ t in Set.Iic x, gaussPDF t) + ∫ t in Set.Ioi x, gaussPDF t
      = ∫ t, gaussPDF t :=
    intervalIntegral.integral_Iic_add_Ioi gaussPDF_integrable.integrableOn
      gaussPDF_integrable.integrableOn
  have hpos : 0 < ∫ t in Set.Ioi x, gaussPDF t := by
    rw [MeasureTheory.setIntegral_pos_iff_support_of_nonneg_ae
      (Filter.Eventually.of_forall fun t => (gaussPDF_pos t).le)
      gaussPDF_integrable.integrableOn]
    have hsupp : Function.support gaussPDF = Set.univ := by
      ext t
      simp [Function.support, (gaussPDF_pos t).ne']
    rw [hsupp, Set.univ_inter, Real.volume_Ioi]
    norm_num
  rw [gaussPDF_integral_one] at hsplit
  unfold normCDF
  linarith

/-- The generalized inverse recovers exact values of the CDF. -/
lemma normPpf_normCDF (a : ℝ) : normPpf (normCDF a) = a := by
  have hset : {x : ℝ | normCDF x ≤ normCDF a} = Set.Iic a := by
    ext x
    simp [normCDF_strictMono.le_iff_le]
  unfold normPpf
  rw [hset]
  exact csSup_Iic

/-- Quantiles of probabilities at most `1/2` are nonpositive. -/
lemma normPpf_nonpos {p : ℝ} (hp : p ≤ 1 / 2) : normPpf p ≤ 0 := by
  refine Real.sSup_le (fun x hx => ?_) le_rfl
  have : normCDF x ≤ normCDF 0 := by
    rw [normCDF_zero]
    exact le_trans hx hp
  exact normCDF_strictMono.le_iff_le.mp this


/-! ## `MCF_nonparametric` (lines 864-1039 of `Repairable_systems.py`)

Each system list is sorted ascending (`system.sort()`); all but its last element are
repair (failure) times, the last is the censoring (retirement) time.  The merged event
table is sorted by time ascending with state `F` before state `C` at ties
(`df.sort_values(by=["times", "states"], ascending=[True, False])`; the sort key
determines the row, so any sorting algorithm yields the same row sequence).  The loop
keeps a number at risk `r` (initially the number of censoring events), decremented at
each censored row, and at each failure row adds `1/r` to the running MCF and the
variance increment to the running variance; `C_seq`/`i_adj` bookkeeping in the source
makes the "running" value exactly the value of the most recent failure row (or absent
if there is none), which is the `prev` argument below. -/

def sortQ (s : List ℚ) : List ℚ := s.insertionSort (· ≤ ·)

/-- `repair_times`: for each system, every sorted value except the last. -/
def repairTimes (data : List (List ℚ)) : List ℚ :=
  (data.map fun s => (sortQ s).dropLast).flatten

/-- `end_times`: for each system, the last sorted value. -/
def endTimes (data : List (List ℚ)) : List ℚ :=
  data.filterMap fun s => (sortQ s).getLast?

/-- The merged event table: `(time, state)` with `true = "F"`, `false = "C"`. -/
def mcfEvents (data : List (List ℚ)) : List (ℚ × Bool) :=
  ((repairTimes data).map fun t => (t, true)) ++ ((endTimes data).map fun t => (t, false))

/-- Sort rank of a state: `F` before `C` at equal times. -/
def evRank (e : ℚ × Bool) : ℕ := if e.2 then 0 else 1

/-- Row order of the merged table: time ascending, then `F` before `C`. -/
def evLE (a b : ℚ × Bool) : Prop := a.1 < b.1 ∨ (a.1 = b.1 ∧ evRank a ≤ evRank b)

instance : DecidableRel evLE := fun a b => by unfold evLE; infer_instance

instance : IsTotal (ℚ × Bool) evLE := by
  constructor
  intro a b
  rcases lt_trichotomy a.1 b.1 with h | h | h
  · exact Or.inl (Or.inl h)
  · rcases Nat.le_total (evRank a) (evRank b) with h2 | h2
    · exact Or.inl (Or.inr ⟨h, h2⟩)
    · exact Or.inr (Or.inr ⟨h.symm, h2⟩)
  · exact Or.inr (Or.inl h)

instance : IsTrans (ℚ × Bool) evLE := by
  constructor
  rintro a b c (h1 | ⟨e1, r1⟩) (h2 | ⟨e2, r2⟩)
  · exact Or.inl (h1.trans h2)
  · exact Or.inl (e2 ▸ h1)
  · exact Or.inl (e1 ▸ h2)
  · exact Or.inr ⟨e1.trans e2, le_trans r1 r2⟩

def sortedEvents (data : List (List ℚ)) : List (ℚ × Bool) :=
  (mcfEvents data).insertionSort evLE

/-- One output row of the MCF table: state (`isF`), the number at risk when the row
was processed, and `some (MCF, variance)` at failure rows / `none` at censored rows. -/
structure MCFRow where
  time : ℚ
  isF : Bool
  atRisk : ℕ
  mcfVar : Option (ℚ × ℚ)
  deriving DecidableEq, Repr

/-- `(r_inv ** 2) * ((1 - r_inv) ** 2 + (r - 1) * (0 - r_inv) ** 2)`. -/
def mcfVarIncrement (r : ℕ) : ℚ :=
  (1 / (r:ℚ)) ^ 2 * ((1 - 1 / (r:ℚ)) ^ 2 + ((r:ℚ) - 1) * (0 - 1 / (r:ℚ)) ^ 2)

/-- The MCF loop.  `prev` is the `(MCF, variance)` pair of the most recent failure row
(`MCF_array[i_adj - 1]` in the source), absent when no failure row has occurred yet.
(The source never divides by `r = 0` at a failure row on inputs that reach the loop;
here `1 / 0 = 0` would be used, and `Repairable.runMCF_atRisk` below shows `r ≥ 1` at
every failure row, so the two agree.) -/
def runMCF : ℕ → Option (ℚ × ℚ) → List (ℚ × Bool) → List MCFRow
  | _, _, [] => []
  | r, prev, (t, true) :: rest =>
    let m : ℚ := 1 / (r:ℚ) + ((prev.map Prod.fst).getD 0)
    let v : ℚ := mcfVarIncrement r + ((prev.map Prod.snd).getD 0)
    ⟨t, true, r, some (m, v)⟩ :: runMCF r (some (m, v)) rest
  | r, prev, (t, false) :: rest =>
    ⟨t, false, r, none⟩ :: runMCF (r - 1) prev rest

/-- The full annotated MCF table for a data set. -/
def mcfRows (data : List (List ℚ)) : List MCFRow :=
  runMCF (endTimes data).length none (sortedEvents data)

/-- Failure-only projection of the MCF column (censored rows carry no value). -/
def failValues (rows : List MCFRow) : List ℚ :=
  rows.filterMap fun row => row.mcfVar.map Prod.fst

def mcfFailureValues (data : List (List ℚ)) : List ℚ := failValues (mcfRows data)

/-! ### Invariants of the MCF loop -/

/-- Number of censored events in a list of events. -/
def countC (l : List (ℚ × Bool)) : ℕ := l.countP fun e => !e.2

lemma countC_nil : countC [] = 0 := rfl

lemma countC_cons_f (t : ℚ) (l : List (ℚ × Bool)) :
    countC ((t, true) :: l) = countC l := by
  simp [countC, List.countP_cons]

lemma countC_cons_c (t : ℚ) (l : List (ℚ × Bool)) :
    countC ((t, false) :: l) = countC l + 1 := by
  simp [countC, List.countP_cons]

/-- Every failure row of `l` is preceded by fewer than `r` censored rows. -/
def cBoundedBefore (l : List (ℚ × Bool)) (r : ℕ) : Prop :=
  ∀ pre t post, l = pre ++ (t, true) :: post → countC pre < r

lemma cBoundedBefore.head {t : ℚ} {rest : List (ℚ × Bool)} {r : ℕ}
    (h : cBoundedBefore ((t, true) :: rest) r) : 1 ≤ r := by
  have := h [] t rest rfl
  simpa [countC_nil] using this

lemma cBoundedBefore.tail_f {t : ℚ} {rest : List (ℚ × Bool)} {r : ℕ}
    (h : cBoundedBefore ((t, true) :: rest) r) : cBoundedBefore rest r := by
  intro pre u post heq
  have := h ((t, true) :: pre) u post (by rw [heq]; rfl)
  rwa [countC_cons_f] at this

lemma cBoundedBefore.tail_c {t : ℚ} {rest : List (ℚ × Bool)} {r : ℕ}
    (h : cBoundedBefore ((t, false) :: rest) r) : cBoundedBefore rest (r - 1) := by
  intro pre u post heq
  have := h ((t, false) :: pre) u post (by rw [heq]; rfl)
  rw [countC_cons_c] at this
  omega

/-- In a sorted merged table every repair time is bounded by its own system's
retirement time, so at least one censored event lies at or after each failure row:
the number of censored rows before any failure row is strictly below the number of
systems. -/
lemma repair_le_some_end {data : List (List ℚ)} {t : ℚ} (ht : t ∈ repairTimes data) :
    ∃ e ∈ endTimes data, t ≤ e := by
  rw [repairTimes, List.mem_flatten] at ht
  obtain ⟨l, hl, htl⟩ := ht
  rw [List.mem_map] at hl
  obtain ⟨s, hs, rfl⟩ := hl
  have hne : sortQ s ≠ [] := by
    intro h0
    rw [h0] at htl
    simp at htl
  refine ⟨(sortQ s).getLast hne, ?_, ?_⟩
  · rw [endTimes, List.mem_filterMap]
    exact ⟨s, hs, List.getLast?_eq_getLast_of_ne_nil hne⟩
  · have hsorted : (sortQ s).Sorted (· ≤ ·) := List.sorted_insertionSort _ s
    have hsplit := List.dropLast_append_getLast hne
    rw [← hsplit] at hsorted
    have hcross := (List.pairwise_append.mp hsorted).2.2
    exact hcross t htl _ (List.mem_singleton_self _)

lemma countC_mcfEvents (data : List (List ℚ)) :
    countC (mcfEvents data) = (endTimes data).length := by
  simp [mcfEvents, countC, List.countP_append, List.countP_map, Function.comp_def]

lemma sortedEvents_perm (data : List (List ℚ)) :
    List.Perm (sortedEvents data) (mcfEvents data) := List.perm_insertionSort evLE _

lemma countC_sortedEvents (data : List (List ℚ)) :
    countC (sortedEvents data) = (endTimes data).length := by
  rw [countC, (sortedEvents_perm data).countP_eq, ← countC, countC_mcfEvents]

lemma sortedEvents_cBounded (data : List (List ℚ)) :
    cBoundedBefore (sortedEvents data) (endTimes data).length := by
  intro pre t post heq
  -- the failure row's time is a repair time
  have hmem : (t, true) ∈ mcfEvents data := by
    have h1 : (t, true) ∈ sortedEvents data := by
      rw [heq]
      exact List.mem_append_right _ (List.mem_cons_self _ _)
    exact (sortedEvents_perm data).mem_iff.mp h1
  have ht : t ∈ repairTimes data := by
    rcases List.mem_append.mp hmem with h1 | h1
    · obtain ⟨a, ha, hae⟩ := List.mem_map.mp h1
      cases hae
      exact ha
    · obtain ⟨a, _, hae⟩ := List.mem_map.mp h1
      cases hae
  -- its own system's retirement lies at or after it
  obtain ⟨e, he, hte⟩ := repair_le_some_end ht
  have heC : (e, false) ∈ sortedEvents data :=
    (sortedEvents_perm data).mem_iff.mpr
      (List.mem_append_right _ (List.mem_map.mpr ⟨e, he, rfl⟩))
  have hsorted : (sortedEvents data).Sorted evLE :=
    List.sorted_insertionSort evLE _
  rw [heq] at hsorted heC
  -- the retirement event cannot be in the strict prefix
  have hpost : (e, false) ∈ (t, true) :: post := by
    rcases List.mem_append.mp heC with h1 | h1
    · exfalso
      have hle : evLE (e, false) (t, true) :=
        (List.pairwise_append.mp hsorted).2.2 _ h1 _ (List.mem_cons_self _ _)
      rcases hle with hlt | ⟨_, hrank⟩
      · exact absurd hte (not_le.mpr hlt)
      · simp [evRank] at hrank
    · exact h1
  have hpost' : (e, false) ∈ post := by
    rcases List.mem_cons.mp hpost with h1 | h1
    · simp at h1
    · exact h1
  -- counting
  have htot : countC pre + countC ((t, true) :: post) = (endTimes data).length := by
    have := countC_sortedEvents data
    rw [heq, countC, List.countP_append] at this
    exact this
  have hpos : 1 ≤ countC ((t, true) :: post) := by
    rw [countC_cons_f, countC]
    have : 0 < List.countP (fun e => !e.2) post :=
      List.countP_pos_iff.mpr ⟨(e, false), hpost', rfl⟩
    omega
  omega

/-- `r ≥ 1` at every failure row emitted by the loop. -/
lemma runMCF_atRisk :
    ∀ (l : List (ℚ × Bool)) (r : ℕ) (prev : Option (ℚ × ℚ)), cBoundedBefore l r →
      ∀ row ∈ runMCF r prev l, row.isF = true → 1 ≤ row.atRisk := by
  intro l
  induction l with
  | nil => intro r prev _ row hrow; simp [runMCF] at hrow
  | cons e rest ih =>
    obtain ⟨t, b⟩ := e
    intro r prev h row hrow hf
    cases b
    · rw [runMCF] at hrow
      rcases List.mem_cons.mp hrow with h1 | h1
      · rw [h1] at hf; simp at hf
      · exact ih (r - 1) prev h.tail_c row h1 hf
    · rw [runMCF] at hrow
      rcases List.mem_cons.mp hrow with h1 | h1
      · rw [h1]
        exact h.head
      · exact ih r _ h.tail_f row h1 hf

/-- The MCF and variance at every failure row are positive resp. nonnegative. -/
lemma runMCF_values :
    ∀ (l : List (ℚ × Bool)) (r : ℕ) (prev : Option (ℚ × ℚ)), cBoundedBefore l r →
      (∀ p, prev = some p → 0 < p.1 ∧ 0 ≤ p.2) →
      ∀ row ∈ runMCF r prev l, ∀ m v, row.mcfVar = some (m, v) → 0 < m ∧ 0 ≤ v := by
  intro l
  induction l with
  | nil => intro r prev _ _ row hrow; simp [runMCF] at hrow
  | cons e rest ih =>
    obtain ⟨t, b⟩ := e
    intro r prev h hprev row hrow m v hmv
    cases b
    · simp only [runMCF] at hrow
      rcases List.mem_cons.mp hrow with h1 | h1
      · rw [h1] at hmv; simp at hmv
      · exact ih (r - 1) prev h.tail_c hprev row h1 m v hmv
    · have hr : 1 ≤ r := h.head
      have hrq : 0 < 1 / (r:ℚ) := by
        have : (0:ℚ) < (r:ℚ) := by exact_mod_cast hr
        positivity
      have hinc : 0 ≤ mcfVarIncrement r := by
        rw [mcfVarIncrement]
        have h1 : (0:ℚ) ≤ ((r:ℚ) - 1) := by
          have : (1:ℚ) ≤ (r:ℚ) := by exact_mod_cast hr
          linarith
        positivity
      have hval : 0 < 1 / (r:ℚ) + ((prev.map Prod.fst).getD 0) ∧
          0 ≤ mcfVarIncrement r + ((prev.map Prod.snd).getD 0) := by
        cases prev with
        | none =>
          refine ⟨by simpa using hrq, by simpa using hinc⟩
        | some p =>
          have hp := hprev p rfl
          refine ⟨?_, ?_⟩
          · simp only [Option.map_some', Option.getD_some]
            linarith [hp.1]
          · simp only [Option.map_some', Option.getD_some]
            linarith [hp.2]
      simp only [runMCF] at hrow
      rcases List.mem_cons.mp hrow with h1 | h1
      · rw [h1] at hmv
        simp only at hmv
        obtain ⟨rfl, rfl⟩ : 1 / (r:ℚ) + ((prev.map Prod.fst).getD 0) = m ∧
            mcfVarIncrement r + ((prev.map Prod.snd).getD 0) = v := by
          have := Option.some.inj hmv
          exact ⟨congrArg Prod.fst this, congrArg Prod.snd this⟩
        exact hval
      · refine ih r _ h.tail_f ?_ row h1 m v hmv
        rintro p hp
        have := Option.some.inj hp
        rw [← this]
        exact hval

lemma failValues_nil : failValues [] = [] := rfl

lemma failValues_cons_c (t : ℚ) (r : ℕ) (rows : List MCFRow) :
    failValues (⟨t, false, r, none⟩ :: rows) = failValues rows := by
  simp [failValues]

lemma failValues_cons_f (t : ℚ) (r : ℕ) (p : ℚ × ℚ) (rows : List MCFRow) :
    failValues (⟨t, true, r, some p⟩ :: rows) = p.1 :: failValues rows := by
  simp [failValues]

/-- The failure-row MCF values emitted by the loop increase strictly, continuing on
from the value of the most recent failure row. -/
lemma runMCF_chain :
    ∀ (l : List (ℚ × Bool)) (r : ℕ) (prev : Option (ℚ × ℚ)), cBoundedBefore l r →
      List.Chain' (· < ·) ((prev.map Prod.fst).toList ++ failValues (runMCF r prev l)) := by
  intro l
  induction l with
  | nil =>
    intro r prev _
    cases prev <;> simp [runMCF, failValues_nil]
  | cons e rest ih =>
    obtain ⟨t, b⟩ := e
    intro r prev h
    cases b
    · simp only [runMCF, failValues_cons_c]
      exact ih (r - 1) prev h.tail_c
    · have hr : 1 ≤ r := h.head
      have hrq : 0 < 1 / (r:ℚ) := by
        have : (0:ℚ) < (r:ℚ) := by exact_mod_cast hr
        positivity
      have hih := ih r (some (1 / (r:ℚ) + ((prev.map Prod.fst).getD 0),
        mcfVarIncrement r + ((prev.map Prod.snd).getD 0))) h.tail_f
      simp only [runMCF, failValues_cons_f]
      cases prev with
      | none => simpa using hih
      | some p =>
        simp only [Option.map_some', Option.toList_some, List.singleton_append]
        refine List.chain'_cons.mpr ⟨?_, by simpa using hih⟩
        simp only [Option.map_some', Option.getD_some]
        linarith

/-- Positivity of MCF values and nonnegativity of variances over a whole run. -/
lemma mcfRows_values (data : List (List ℚ)) :
    ∀ row ∈ mcfRows data, ∀ m v, row.mcfVar = some (m, v) → 0 < m ∧ 0 ≤ v := by
  refine runMCF_values _ _ none (sortedEvents_cBounded data) ?_
  rintro p ⟨⟩

/-- C1.  For every input, along the sorted failure-only projection the MCF point
estimates are non-decreasing (indeed strictly increasing), and the number at risk is
at least `1` at every failure row (each failure adds `1/r` to the prior failure's
MCF by construction of `Repairable.runMCF`). -/
theorem C1_mcf_nondecreasing (data : List (List ℚ)) :
    List.Chain' (· ≤ ·) (mcfFailureValues data) ∧
      ∀ row ∈ mcfRows data, row.isF = true → 1 ≤ row.atRisk := by
  constructor
  · have h := runMCF_chain (sortedEvents data) (endTimes data).length none
      (sortedEvents_cBounded data)
    simp only [Option.map_none', Option.toList_none, List.nil_append] at h
    exact List.Chain'.imp (fun a b => le_of_lt) h
  · exact runMCF_atRisk _ _ none (sortedEvents_cBounded data)

/-! ### Confidence bounds of `MCF_nonparametric` -/

/-- `Z = -ss.norm.ppf(1 - CI)` (line 923): one-sided Z-value from the CI. -/
noncomputable def zOneSided (CI : ℝ) : ℝ := -normPpf (1 - CI)

/-- `MCF_lower = MCF / np.exp((Z * Var ** 0.5) / MCF)` (lines 951-952). -/
noncomputable def mcfLowerVal (CI : ℝ) (m v : ℚ) : ℝ :=
  (m:ℝ) / Real.exp (zOneSided CI * Real.sqrt (v:ℝ) / (m:ℝ))

/-- `MCF_upper = MCF * np.exp((Z * Var ** 0.5) / MCF)` (lines 954-955). -/
noncomputable def mcfUpperVal (CI : ℝ) (m v : ℚ) : ℝ :=
  (m:ℝ) * Real.exp (zOneSided CI * Real.sqrt (v:ℝ) / (m:ℝ))

/-- The CI validation of `MCF_nonparametric.__init__` (line 910): it raises exactly
when `CI < 0 or CI > 1`. -/
def mcfCIRejected (CI : ℝ) : Prop := CI < 0 ∨ CI > 1

/-- C2 (amended).  At every failure row the log-normal bounds bracket the MCF,
`upper ≥ MCF ≥ lower`, whenever the confidence level satisfies `CI ≥ 1/2`, so that
the derived one-sided Z-value is nonnegative.  (For `CI < 1/2` the Z-value is
negative and the inequalities turn around, see the counterexample.) -/
theorem C2_bounds_order (data : List (List ℚ)) (CI : ℝ)
    (h1 : 1 / 2 ≤ CI) (h2 : CI < 1) :
    ∀ row ∈ mcfRows data, ∀ m v, row.mcfVar = some (m, v) →
      mcfLowerVal CI m v ≤ (m:ℝ) ∧ (m:ℝ) ≤ mcfUpperVal CI m v := by
  intro row hrow m v hmv
  obtain ⟨hm, hv⟩ := mcfRows_values data row hrow m v hmv
  have hmR : (0:ℝ) < (m:ℝ) := by exact_mod_cast hm
  have hvR : (0:ℝ) ≤ (v:ℝ) := by exact_mod_cast hv
  have hZ : 0 ≤ zOneSided CI := by
    rw [zOneSided]
    have := normPpf_nonpos (p := 1 - CI) (by linarith)
    linarith
  have harg : 0 ≤ zOneSided CI * Real.sqrt (v:ℝ) / (m:ℝ) := by positivity
  have hE : 1 ≤ Real.exp (zOneSided CI * Real.sqrt (v:ℝ) / (m:ℝ)) := by
    rw [← Real.exp_zero]
    exact Real.exp_le_exp.mpr harg
  constructor
  · rw [mcfLowerVal]
    exact div_le_self hmR.le hE
  · rw [mcfUpperVal]
    exact le_mul_of_one_le_right hmR.le hE

theorem C2_bounds_order_witness :
    ((1:ℝ) / 2 ≤ 3 / 4 ∧ (3 / 4 : ℝ) < 1) ∧
      (∀ row ∈ mcfRows [[1, 2], [3, 4]], ∀ m v, row.mcfVar = some (m, v) →
        mcfLowerVal (3 / 4) m v ≤ (m:ℝ) ∧ (m:ℝ) ≤ mcfUpperVal (3 / 4) m v) :=
  ⟨⟨by norm_num, by norm_num⟩,
    C2_bounds_order [[1, 2], [3, 4]] (3 / 4) (by norm_num) (by norm_num)⟩

lemma mcfRows_pair_example : mcfRows [[1, 2], [3, 4]] =
    [⟨1, true, 2, some (1/2, 1/8)⟩, ⟨2, false, 2, none⟩,
     ⟨3, true, 1, some (3/2, 1/8)⟩, ⟨4, false, 1, none⟩] := by
  have h : sortedEvents [[1, 2], [3, 4]] = [(1, true), (2, false), (3, true), (4, false)] := by
    decide
  have h2 : (endTimes [[1, 2], [3, 4]]).length = 2 := by decide
  rw [mcfRows, h, h2]
  simp only [runMCF, mcfVarIncrement]
  norm_num

/-- C2 fails as stated: at the confidence level `CI = 1 - Φ(1) ≈ 0.159 ∈ (0,1)` the
derived Z-value is `-1`, and at the first failure row of the two-system data set
`[[1,2],[3,4]]` the reported upper bound is strictly below the MCF. -/
theorem C2_bounds_order_cex :
    (0 < 1 - normCDF 1 ∧ 1 - normCDF 1 < 1) ∧
      ∃ row ∈ mcfRows [[1, 2], [3, 4]], ∃ m v, row.mcfVar = some (m, v) ∧
        mcfUpperVal (1 - normCDF 1) m v < (m:ℝ) := by
  have hc1 : 0 < 1 - normCDF 1 := by linarith [normCDF_lt_one 1]
  have hc2 : 1 - normCDF 1 < 1 := by linarith [normCDF_pos 1]
  refine ⟨⟨hc1, hc2⟩, ⟨1, true, 2, some (1/2, 1/8)⟩, ?_, 1/2, 1/8, rfl, ?_⟩
  · rw [mcfRows_pair_example]
    exact List.mem_cons_self _ _
  · have hZ : zOneSided (1 - normCDF 1) = -1 := by
      rw [zOneSided, sub_sub_cancel, normPpf_normCDF]
    rw [mcfUpperVal, hZ]
    have hsq : 0 < Real.sqrt (((1:ℚ)/8 : ℚ) : ℝ) := by
      apply Real.sqrt_pos.mpr
      norm_num
    have hexp : Real.exp (-1 * Real.sqrt (((1:ℚ)/8 : ℚ) : ℝ) / (((1:ℚ)/2 : ℚ) : ℝ)) < 1 := by
      apply Real.exp_lt_one_iff.mpr
      push_cast
      nlinarith
    push_cast at hexp ⊢
    nlinarith

/-- C3.  The code accepts both endpoints: the check at line 910 is
`CI < 0 or CI > 1`, so `CI = 0` and `CI = 1` do not raise, although the spec (and the
sibling checks in `ROCOF` line 628 and `MCF_parametric` line 1215, which use
`CI <= 0 or CI >= 1`) require rejection of the endpoints. -/
theorem C3_ci_endpoints_accepted : ¬ mcfCIRejected 0 ∧ ¬ mcfCIRejected 1 := by
  constructor <;> simp [mcfCIRejected]

/-! ### Mutation of the caller's data by `MCF_nonparametric` (C9) -/

/-- The caller's list of system lists after `MCF_nonparametric.__init__` returns:
`system.sort()` (line 903) sorts each caller-supplied inner list in place (ascending),
while the outer list keeps its length and order. -/
def mcfCallerDataAfter (data : List (List ℚ)) : List (List ℚ) := data.map sortQ

/-- C9 fails as stated: the caller's data is mutated.  For `data = [[3,1,2]]` the
inner list reads `[1,2,3]` after the call. -/
theorem C9_mcf_purity_cex : mcfCallerDataAfter [[3, 1, 2]] ≠ [[3, 1, 2]] := by decide

/-- C9 (amended).  `MCF_nonparametric` sorts each caller-supplied inner list in place:
after the call, the outer list has the same length and order, and each inner list is
an ascending-sorted permutation of the caller's original list (so callers passing
unsorted lists observe mutation). -/
theorem C9_mcf_mutation (data : List (List ℚ)) :
    (mcfCallerDataAfter data).length = data.length ∧
      List.Forall₂ (fun original now => List.Perm now original ∧ now.Sorted (· ≤ ·))
        data (mcfCallerDataAfter data) := by
  constructor
  · simp [mcfCallerDataAfter]
  · rw [mcfCallerDataAfter, List.forall₂_map_right_iff]
    refine List.forall₂_same.mpr fun s _ => ⟨List.perm_insertionSort _ s, ?_⟩
    exact List.sorted_insertionSort _ s

/-! ### The retirement-time check of `MCF_nonparametric` (C10) -/

/-- The check at line 915: raise iff `max(end_times) < max(repair_times)`. -/
def mcfEndCheckRaises (data : List (List ℚ)) : Prop :=
  (endTimes data).maximum < (repairTimes data).maximum

/-- C10.  The error branch is unreachable: whenever there is at least one repair
event, the largest retirement time is at least the largest repair time, because each
system is sorted and its own retirement (last element) bounds all its repairs. -/
theorem C10_end_check_unreachable (data : List (List ℚ))
    (h : repairTimes data ≠ []) : ¬ mcfEndCheckRaises data := by
  intro hraise
  obtain ⟨t0, ht0⟩ : ∃ t0 : ℚ, (repairTimes data).maximum = t0 := by
    have hb := List.maximum_ne_bot_of_ne_nil h
    cases h0 : (repairTimes data).maximum with
    | bot => exact absurd h0 hb
    | coe a => exact ⟨a, rfl⟩
  have hmem : t0 ∈ repairTimes data := List.maximum_mem ht0
  obtain ⟨e, he, hte⟩ := repair_le_some_end hmem
  have h1 : ((t0 : ℚ) : WithBot ℚ) ≤ (endTimes data).maximum :=
    le_trans (by exact_mod_cast hte) (List.le_maximum_of_mem' he)
  rw [mcfEndCheckRaises, ht0] at hraise
  exact absurd h1 (not_le.mpr hraise)

theorem C10_end_check_unreachable_witness :
    repairTimes [[1, 2]] ≠ [] ∧ ¬ mcfEndCheckRaises [[1, 2]] :=
  ⟨by decide, C10_end_check_unreachable [[1, 2]] (by decide)⟩

/-! ## `optimal_replacement_time` (lines 330-519 of `Repairable_systems.py`) -/

/-- The cost validation at line 349: it raises exactly when `cost_PM > cost_CM`. -/
def ortCostRejected (costPM costCM : ℝ) : Prop := costPM > costCM

/-- C7.  The code accepts `cost_PM = cost_CM`: the check at line 349 is
`cost_PM > cost_CM`, although the class docstring ("must be smaller than Cost_CM")
and the spec require `cost_PM < cost_CM`. -/
theorem C7_ort_cost_equality_accepted : ¬ ortCostRejected 5 5 := by
  norm_num [ortCostRejected]

/-- The reported optimal replacement time of the `q == 1` branch (lines 363-365):
`ORT = weibull_alpha * ((cost_CM / (cost_PM * (weibull_beta - 1))) ** (1 / weibull_beta))`. -/
noncomputable def ortQ1 (costPM costCM alpha beta : ℝ) : ℝ :=
  alpha * (costCM / (costPM * (beta - 1))) ^ ((1:ℝ) / beta)

/-- The reported minimum cost of the `q == 1` branch (lines 366-368):
`min_cost = ((cost_PM * (ORT / weibull_alpha) ** weibull_beta) + cost_CM) / ORT`. -/
noncomputable def ortQ1MinCost (costPM costCM alpha beta : ℝ) : ℝ :=
  (costPM * (ortQ1 costPM costCM alpha beta / alpha) ^ beta + costCM) /
    ortQ1 costPM costCM alpha beta

/-- The spec's closed-form optimum age `scale * (cost_CM / (cost_PM * (shape - 1)))^(1/shape)`. -/
noncomputable def specOptimumAge (costPM costCM scale shape : ℝ) : ℝ :=
  scale * (costCM / (costPM * (shape - 1))) ^ ((1:ℝ) / shape)

/-- The spec's cost-per-unit-time function `(cost_PM * (t/scale)^shape + cost_CM) / t`. -/
noncomputable def specCostPerUnitTime (costPM costCM scale shape t : ℝ) : ℝ :=
  (costPM * (t / scale) ^ shape + costCM) / t

/-- C6.  In the `q = 1` (as-good-as-old) branch, the reported optimal replacement
time is exactly the spec's closed form, and the reported minimum cost is exactly the
spec's cost-per-unit-time function evaluated at that optimum. -/
theorem C6_ort_q1_closed_form (costPM costCM alpha beta : ℝ)
    (hshape : 1 < beta) (hcost : costPM < costCM) :
    ortQ1 costPM costCM alpha beta = specOptimumAge costPM costCM alpha beta ∧
      ortQ1MinCost costPM costCM alpha beta =
        specCostPerUnitTime costPM costCM alpha beta (ortQ1 costPM costCM alpha beta) :=
  ⟨rfl, rfl⟩

theorem C6_ort_q1_closed_form_witness :
    ((1:ℝ) < 5/2 ∧ (1:ℝ) < 5) ∧
      (ortQ1 1 5 1000 (5/2) = specOptimumAge 1 5 1000 (5/2) ∧
        ortQ1MinCost 1 5 1000 (5/2) =
          specCostPerUnitTime 1 5 1000 (5/2) (ortQ1 1 5 1000 (5/2))) :=
  ⟨⟨by norm_num, by norm_num⟩,
    C6_ort_q1_closed_form 1 5 1000 (5/2) (by norm_num) (by norm_num)⟩

/-! ## `reliability_growth` (lines 90-189 of `Repairable_systems.py`)

`times` is sorted ascending (line 101); `n = len(times)`, `max_time = max(times)`,
`MTBF_c = times / [1..n]` (cumulative MTBF at the i-th failure). -/

/-- `max(times)`: the last element of the ascending sort (`0` junk on `[]`;
the source raises before this point for empty input). -/
def maxTimeQ (times : List ℚ) : ℚ := ((sortQ times).getLast?).getD 0

lemma maxTimeQ_mem {times : List ℚ} (h : times ≠ []) : maxTimeQ times ∈ times := by
  have hne : sortQ times ≠ [] := by
    intro h0
    have := (List.perm_insertionSort (· ≤ ·) times).length_eq
    rw [show sortQ times = List.insertionSort (· ≤ ·) times from rfl] at h0
    rw [h0] at this
    exact h (List.length_eq_zero.mp this.symm)
  rw [maxTimeQ, List.getLast?_eq_getLast_of_ne_nil hne, Option.getD_some]
  exact (List.perm_insertionSort (· ≤ ·) times).subset (List.getLast_mem hne)

/-- Crow-AMSAA `Beta = n / (n * log(max_time) - log(times).sum())` (line 132). -/
noncomputable def crowBeta (times : List ℚ) : ℝ :=
  (times.length : ℝ) /
    ((times.length : ℝ) * Real.log ((maxTimeQ times : ℚ) : ℝ) -
      (times.map fun t => Real.log ((t : ℚ) : ℝ)).sum)

/-- Crow-AMSAA `Lambda = n / max_time ** Beta` (line 133). -/
noncomputable def crowLambda (times : List ℚ) : ℝ :=
  (times.length : ℝ) / ((maxTimeQ times : ℚ) : ℝ) ^ crowBeta times

/-- Crow-AMSAA `t_target = (1 / (Lambda * target_MTBF)) ** (1 / (Beta - 1))` (line 154). -/
noncomputable def crowTimeToTarget (times : List ℚ) (target : ℝ) : ℝ :=
  (1 / (crowLambda times * target)) ^ ((1:ℝ) / (crowBeta times - 1))

/-- Crow-AMSAA cumulative-MTBF model `(1/Lambda) * t ** (1 - Beta)` (line 137). -/
noncomputable def crowCumMTBF (times : List ℚ) (t : ℝ) : ℝ :=
  (1 / crowLambda times) * t ^ (1 - crowBeta times)

/-- `MTBF_c = times / range(1, n + 1)` on the sorted times (line 129). -/
def mtbfCumPoints (times : List ℚ) : List ℚ :=
  ((sortQ times).enum).map fun p => p.2 / ((p.1 : ℚ) + 1)

/-- `x = np.log(times)` (line 140). -/
noncomputable def duaneXs (times : List ℚ) : List ℝ :=
  (sortQ times).map fun t => Real.log ((t : ℚ) : ℝ)

/-- `y = np.log(MTBF_c)` (line 141). -/
noncomputable def duaneYs (times : List ℚ) : List ℝ :=
  (mtbfCumPoints times).map fun c => Real.log ((c : ℚ) : ℝ)

/-- Slope of `np.polyfit(x, y, 1)` (line 143), written by the degree-1 least-squares
normal equations `slope = (n Σxy - Σx Σy) / (n Σx² - (Σx)²)`, which is the unique
least-squares solution whenever the denominator is nonzero (the theorems below
assume this nondegeneracy). -/
noncomputable def duaneSlope (times : List ℚ) : ℝ :=
  ((times.length : ℝ) * (List.zipWith (· * ·) (duaneXs times) (duaneYs times)).sum -
      (duaneXs times).sum * (duaneYs times).sum) /
    ((times.length : ℝ) * ((duaneXs times).map fun x => x ^ 2).sum -
      (duaneXs times).sum ^ 2)

/-- Intercept of `np.polyfit(x, y, 1)` (line 143), by the same normal equations. -/
noncomputable def duaneIntercept (times : List ℚ) : ℝ :=
  ((duaneYs times).sum - duaneSlope times * (duaneXs times).sum) / (times.length : ℝ)

/-- `b = np.exp(z[1])` (line 145). -/
noncomputable def duaneB (times : List ℚ) : ℝ := Real.exp (duaneIntercept times)

/-- Duane `t_target = (target_MTBF / b) ** (1 / Alpha)` (line 156), `Alpha = z[0]`. -/
noncomputable def duaneTimeToTarget (times : List ℚ) (target : ℝ) : ℝ :=
  (target / duaneB times) ^ ((1:ℝ) / duaneSlope times)

/-- Duane cumulative-MTBF model `b * t ** Alpha` (line 146). -/
noncomputable def duaneCumMTBF (times : List ℚ) (t : ℝ) : ℝ :=
  duaneB times * t ^ duaneSlope times

inductive GrowthModel
  | crowAMSAA
  | duane
  deriving DecidableEq

/-- `time_to_target`: a number when `target_MTBF` is given, otherwise the report
string `"specify target_MTBF to obtain the time_to_target"` (lines 152-160). -/
inductive TimeToTarget
  | value (t : ℝ)
  | unspecified

noncomputable def growthTimeToTarget (model : GrowthModel) (times : List ℚ)
    (target : Option ℝ) : TimeToTarget :=
  match target with
  | none => .unspecified
  | some M =>
    match model with
    | .crowAMSAA => .value (crowTimeToTarget times M)
    | .duane => .value (duaneTimeToTarget times M)

lemma crowLambda_pos {times : List ℚ} (hne : times ≠ [])
    (hpos : ∀ t ∈ times, (0:ℚ) < t) : 0 < crowLambda times := by
  have hmax : (0:ℝ) < ((maxTimeQ times : ℚ) : ℝ) := by
    exact_mod_cast hpos _ (maxTimeQ_mem hne)
  have hn : (0:ℝ) < (times.length : ℝ) := by
    have : 0 < times.length := List.length_pos.mpr hne
    exact_mod_cast this
  exact div_pos hn (Real.rpow_pos_of_pos hmax _)

/-- C8.  With a target MTBF set, the reported `time_to_target` is the exact inverse
of the fitted cumulative-MTBF model, for both models; with no target set, the
reported value is the report string, not a number. -/
theorem C8_growth_time_to_target :
    (∀ (times : List ℚ) (M : ℝ), times ≠ [] → (∀ t ∈ times, (0:ℚ) < t) → 0 < M →
        crowBeta times ≠ 1 →
        growthTimeToTarget .crowAMSAA times (some M) =
            .value (crowTimeToTarget times M) ∧
          crowCumMTBF times (crowTimeToTarget times M) = M) ∧
      (∀ (times : List ℚ) (M : ℝ), 0 < M → duaneSlope times ≠ 0 →
        growthTimeToTarget .duane times (some M) =
            .value (duaneTimeToTarget times M) ∧
          duaneCumMTBF times (duaneTimeToTarget times M) = M) ∧
      (∀ (model : GrowthModel) (times : List ℚ),
        growthTimeToTarget model times none = .unspecified) := by
  refine ⟨?_, ?_, ?_⟩
  · intro times M hne hpos hM hB
    refine ⟨rfl, ?_⟩
    have hL : 0 < crowLambda times := crowLambda_pos hne hpos
    have hLM : 0 < crowLambda times * M := mul_pos hL hM
    rw [crowCumMTBF, crowTimeToTarget,
      ← Real.rpow_mul (le_of_lt (one_div_pos.mpr hLM))]
    have hexp : (1:ℝ) / (crowBeta times - 1) * (1 - crowBeta times) = -1 := by
      have hB1 : crowBeta times - 1 ≠ 0 := sub_ne_zero.mpr hB
      field_simp
    rw [hexp, Real.rpow_neg_one, one_div (crowLambda times * M), inv_inv]
    field_simp
  · intro times M hM hA
    refine ⟨rfl, ?_⟩
    have hb : 0 < duaneB times := Real.exp_pos _
    have hMb : 0 ≤ M / duaneB times := le_of_lt (div_pos hM hb)
    rw [duaneCumMTBF, duaneTimeToTarget, ← Real.rpow_mul hMb]
    rw [one_div, inv_mul_cancel₀ hA, Real.rpow_one]
    field_simp
  · intro model times
    rfl

lemma crowBeta_pair : crowBeta [1, 2] = 2 / Real.log 2 := by
  have hmax : maxTimeQ [1, 2] = 2 := by decide
  rw [crowBeta, hmax]
  norm_num [Real.log_one]
  ring_nf

lemma crowBeta_pair_ne_one : crowBeta [1, 2] ≠ 1 := by
  rw [crowBeta_pair]
  have hl2 : 0 < Real.log 2 := Real.log_pos one_lt_two
  intro h
  rw [div_eq_one_iff_eq (ne_of_gt hl2)] at h
  linarith [Real.log_two_lt_d9]

lemma duaneXs_pair : duaneXs [1, 3] = [0, Real.log 3] := by
  have hs : sortQ [1, 3] = [1, 3] := by decide
  rw [duaneXs, hs]
  norm_num [Real.log_one]

lemma mtbfCumPoints_pair : mtbfCumPoints [1, 3] = [1, 3/2] := by
  have hs : sortQ [1, 3] = [1, 3] := by decide
  rw [mtbfCumPoints, hs]
  norm_num [List.enum]

lemma duaneYs_pair : duaneYs [1, 3] = [0, Real.log (3/2)] := by
  rw [duaneYs, mtbfCumPoints_pair]
  norm_num [Real.log_one]

lemma duaneSlope_pair : duaneSlope [1, 3] = Real.log 3 * Real.log (3/2) / (Real.log 3) ^ 2 := by
  rw [duaneSlope, duaneXs_pair, duaneYs_pair]
  norm_num
  ring_nf

lemma duaneSlope_pair_ne : duaneSlope [1, 3] ≠ 0 := by
  rw [duaneSlope_pair]
  have h3 : 0 < Real.log 3 := Real.log_pos (by norm_num)
  have h32 : 0 < Real.log (3/2) := Real.log_pos (by norm_num)
  positivity

theorem C8_growth_time_to_target_witness :
    (([1, 2] : List ℚ) ≠ [] ∧ (∀ t ∈ ([1, 2] : List ℚ), (0:ℚ) < t) ∧ (0:ℝ) < 5 ∧
        crowBeta [1, 2] ≠ 1 ∧
        crowCumMTBF [1, 2] (crowTimeToTarget [1, 2] 5) = 5) ∧
      (duaneSlope [1, 3] ≠ 0 ∧
        duaneCumMTBF [1, 3] (duaneTimeToTarget [1, 3] 5) = 5) ∧
      growthTimeToTarget .crowAMSAA [1, 2] none = .unspecified :=
  ⟨⟨by decide, by decide, by norm_num, crowBeta_pair_ne_one,
      (C8_growth_time_to_target.1 [1, 2] 5 (by decide) (by decide) (by norm_num)
        crowBeta_pair_ne_one).2⟩,
    ⟨duaneSlope_pair_ne,
      (C8_growth_time_to_target.2.1 [1, 3] 5 (by norm_num) duaneSlope_pair_ne).2⟩,
    C8_growth_time_to_target.2.2 .crowAMSAA [1, 2]⟩

/-! ## `ROCOF` (lines 588-763 of `Repairable_systems.py`)

Exactly one of `times_between_failures` / `failure_times` may be given (line 598);
absolute failure times are sorted and differenced into interarrival times
(lines 614-623).  With no `test_end`, `tn = sum(ti)` and `n = len(ti) - 1`, else
`tn = test_end` and `n = len(ti)` (lines 632-639).  The Laplace statistic `U` is
compared with `z_crit = norm.ppf((1 - CI) / 2)` (lines 652-653, 667-700).
When neither input is given, the source raises an `UnboundLocalError` at line 633
(`ti` was never assigned) instead of the explicit mutually-exclusive-inputs error. -/

/-- `np.cumsum`. -/
def cumsumQ (l : List ℚ) : List ℚ := (l.scanl (· + ·) 0).tail

/-- Sort the absolute failure times and difference them
(`failure_times[1:] -= failure_times[:-1]`, lines 614-623). -/
def toInterarrival (l : List ℚ) : List ℚ :=
  match sortQ l with
  | [] => []
  | h :: t => h :: List.zipWith (· - ·) t (h :: t)

inductive RocofTrend
  | improving
  | worsening
  | constant
  deriving DecidableEq

/-- The outputs of `ROCOF.__init__`: the string-valued "not calculated" /
"not provided" attributes are modelled as `none`. -/
structure RocofOut where
  U : ℝ
  zCrit : ℝ × ℝ
  trend : RocofTrend
  betaHat : Option ℝ
  lambdaHat : Option ℝ
  rocofValue : Option ℝ

/-- The distinct failure modes of `ROCOF.__init__`.  `tiUnbound` models the
`UnboundLocalError` raised at line 633 when neither input list was supplied. -/
inductive RocofErr
  | bothGiven
  | nonPositive
  | ciOutOfRange
  | testEndSmall
  | tiUnbound
  deriving DecidableEq

/-- The Laplace statistic `U = (sum_tc / n - tn / 2) / (tn * (1 / (12 * n)) ** 0.5)`
(line 653). -/
noncomputable def rocofU (ti : List ℚ) (tn : ℚ) (n : ℕ) : ℝ :=
  (((cumsumQ (ti.take n)).sum : ℚ) / (n : ℝ) - (tn : ℝ) / 2) /
    ((tn : ℝ) * Real.sqrt (1 / (12 * (n : ℝ))))

/-- `sum(np.log(tn / np.array(tc)))` with `tc = np.cumsum(ti[0:n])` (lines 650, 668). -/
noncomputable def rocofLogSum (ti : List ℚ) (tn : ℚ) (n : ℕ) : ℝ :=
  ((cumsumQ (ti.take n)).map fun t => Real.log (((tn : ℚ) : ℝ) / ((t : ℚ) : ℝ))).sum

/-- The trend classification and parameter reporting (lines 652-700). -/
noncomputable def rocofCompute (ti : List ℚ) (tn : ℚ) (n : ℕ) (CI : ℝ) : RocofOut :=
  let z : ℝ := normPpf ((1 - CI) / 2)
  let U : ℝ := rocofU ti tn n
  if U < z then
    ⟨U, (z, -z), .improving,
      some ((ti.length : ℝ) / rocofLogSum ti tn n),
      some ((ti.length : ℝ) / ((tn : ℚ) : ℝ) ^ ((ti.length : ℝ) / rocofLogSum ti tn n)),
      none⟩
  else if -z < U then
    ⟨U, (z, -z), .worsening,
      some ((ti.length : ℝ) / rocofLogSum ti tn n),
      some ((ti.length : ℝ) / ((tn : ℚ) : ℝ) ^ ((ti.length : ℝ) / rocofLogSum ti tn n)),
      none⟩
  else
    ⟨U, (z, -z), .constant, none, none, some (((n : ℝ) + 1) / (ti.sum : ℝ))⟩

/-- Lines 628-639: the CI range check, then the horizon/count selection and the
`test_end` consistency check. -/
noncomputable def rocofMain (ti : List ℚ) (CI : ℝ) (testEnd : Option ℚ) :
    Except RocofErr RocofOut :=
  if CI ≤ 0 ∨ 1 ≤ CI then .error .ciOutOfRange
  else
    match testEnd with
    | none => .ok (rocofCompute ti ti.sum (ti.length - 1) CI)
    | some te =>
      if te < ti.sum then .error .testEndSmall
      else .ok (rocofCompute ti te ti.length CI)

/-- `ROCOF.__init__` (lines 598-700, numeric part). -/
noncomputable def rocofRun (tbf ft : Option (List ℚ)) (CI : ℝ) (testEnd : Option ℚ) :
    Except RocofErr RocofOut :=
  match tbf, ft with
  | some _, some _ => .error .bothGiven
  | some l, none =>
    if ∃ t ∈ l, t ≤ 0 then .error .nonPositive else rocofMain l CI testEnd
  | none, some l =>
    if ∃ t ∈ l, t ≤ 0 then .error .nonPositive
    else rocofMain (toInterarrival l) CI testEnd
  | none, none =>
    if CI ≤ 0 ∨ 1 ≤ CI then .error .ciOutOfRange else .error .tiUnbound

/-- The list of interarrival times a run works on. -/
def rocofTi (tbf ft : Option (List ℚ)) : Option (List ℚ) :=
  match tbf, ft with
  | some l, none => some l
  | none, some l => some (toInterarrival l)
  | _, _ => none

/-- `n`: the number of events entering the Laplace statistic (lines 632-637). -/
def rocofN (ti : List ℚ) (testEnd : Option ℚ) : ℕ :=
  match testEnd with
  | none => ti.length - 1
  | some _ => ti.length

/-- `tn`: the test horizon (lines 632-637). -/
def rocofT (ti : List ℚ) (testEnd : Option ℚ) : ℚ :=
  match testEnd with
  | none => ti.sum
  | some te => te

lemma rocofMain_ok {l : List ℚ} {CI : ℝ} {testEnd : Option ℚ} {out : RocofOut}
    (h : rocofMain l CI testEnd = .ok out) :
    out = rocofCompute l (rocofT l testEnd) (rocofN l testEnd) CI := by
  rw [rocofMain.eq_def] at h
  split_ifs at h
  cases testEnd with
  | none =>
    have h' : Except.ok (ε := RocofErr) (rocofCompute l l.sum (l.length - 1) CI)
        = .ok out := h
    simp only [rocofT, rocofN]
    exact (Except.ok.inj h').symm
  | some te =>
    have h' : (if te < l.sum then Except.error RocofErr.testEndSmall
        else Except.ok (rocofCompute l te l.length CI)) = .ok out := h
    split_ifs at h'
    simp only [rocofT, rocofN]
    exact (Except.ok.inj h').symm

lemma rocofRun_ok {tbf ft : Option (List ℚ)} {CI : ℝ} {testEnd : Option ℚ}
    {ti : List ℚ} {out : RocofOut}
    (hti : rocofTi tbf ft = some ti)
    (hrun : rocofRun tbf ft CI testEnd = .ok out) :
    out = rocofCompute ti (rocofT ti testEnd) (rocofN ti testEnd) CI := by
  cases tbf with
  | some l =>
    cases ft with
    | some l' => simp [rocofRun] at hrun
    | none =>
      simp only [rocofTi, Option.some.injEq] at hti
      subst hti
      simp only [rocofRun] at hrun
      split_ifs at hrun
      exact rocofMain_ok hrun
  | none =>
    cases ft with
    | some l' =>
      simp only [rocofTi, Option.some.injEq] at hti
      subst hti
      simp only [rocofRun] at hrun
      split_ifs at hrun
      exact rocofMain_ok hrun
    | none => simp [rocofTi] at hti

lemma rocofCompute_cases (ti : List ℚ) (tn : ℚ) (n : ℕ) (CI : ℝ) :
    ((rocofCompute ti tn n CI).trend = .constant →
        (rocofCompute ti tn n CI).rocofValue = some (((n : ℝ) + 1) / (ti.sum : ℝ)) ∧
          (rocofCompute ti tn n CI).betaHat = none ∧
          (rocofCompute ti tn n CI).lambdaHat = none) ∧
      ((rocofCompute ti tn n CI).trend ≠ .constant →
        (rocofCompute ti tn n CI).rocofValue = none ∧
          (rocofCompute ti tn n CI).betaHat =
            some ((ti.length : ℝ) / rocofLogSum ti tn n) ∧
          (rocofCompute ti tn n CI).lambdaHat =
            some ((ti.length : ℝ) /
              ((tn : ℚ) : ℝ) ^ ((ti.length : ℝ) / rocofLogSum ti tn n))) := by
  rw [rocofCompute]
  split_ifs <;> simp

/-- C4 (amended).  For every successful `ROCOF` run: if the trend is `constant`,
the reported ROCOF is `(n + 1) / Σ(interarrival times)` (with `n` the number of
events entering the Laplace statistic) and no NHPP shape/rate is reported; if the
trend is non-constant, no single ROCOF value is reported, and `shape = m / Σln(T/tᵢ)`
and `rate = m / T^shape` are reported, where `m = len(ti)` is the total number of
interarrival times — which is `n + 1` when no `test_end` is supplied (not `n` as
claimed), and `n` when it is. -/
theorem C4_rocof_consistency (tbf ft : Option (List ℚ)) (CI : ℝ)
    (testEnd : Option ℚ) (ti : List ℚ) (out : RocofOut)
    (hti : rocofTi tbf ft = some ti)
    (hrun : rocofRun tbf ft CI testEnd = .ok out) :
    (out.trend = .constant →
        out.rocofValue = some (((rocofN ti testEnd : ℝ) + 1) / (ti.sum : ℝ)) ∧
          out.betaHat = none ∧ out.lambdaHat = none) ∧
      (out.trend ≠ .constant →
        out.rocofValue = none ∧
          out.betaHat = some ((ti.length : ℝ) /
            rocofLogSum ti (rocofT ti testEnd) (rocofN ti testEnd)) ∧
          out.lambdaHat = some ((ti.length : ℝ) /
            ((rocofT ti testEnd : ℚ) : ℝ) ^
              ((ti.length : ℝ) /
                rocofLogSum ti (rocofT ti testEnd) (rocofN ti testEnd)))) := by
  have hout := rocofRun_ok hti hrun
  rw [hout]
  exact rocofCompute_cases ti (rocofT ti testEnd) (rocofN ti testEnd) CI

lemma cumsum_take_cex : cumsumQ (List.take 3 [10, 1, 1, 1]) = [10, 11, 12] := by
  norm_num [cumsumQ, List.scanl]

lemma rocofU_cex : rocofU [10, 1, 1, 1] 13 3 = 27 / 13 := by
  rw [rocofU, cumsum_take_cex]
  rw [show ([10, 11, 12] : List ℚ).sum = 33 from by norm_num]
  rw [show Real.sqrt (1 / (12 * ((3:ℕ) : ℝ))) = 1 / 6 from by
    rw [show (1:ℝ) / (12 * ((3:ℕ) : ℝ)) = (1/6)^2 from by norm_num,
      Real.sqrt_sq (by norm_num : (0:ℝ) ≤ 1/6)]]
  push_cast
  norm_num

example : True := trivial

lemma normCDF_neg_two_lt : normCDF (-2) < 1 / 2 := by
  have := normCDF_strictMono (show (-2:ℝ) < 0 by norm_num)
  rwa [normCDF_zero] at this

lemma rocofZ_cex : normPpf ((1 - (1 - 2 * normCDF (-2))) / 2) = -2 := by
  rw [show (1 - (1 - 2 * normCDF (-2))) / 2 = normCDF (-2) from by ring]
  exact normPpf_normCDF (-2)

lemma rocofTrend_cex :
    (rocofCompute [10, 1, 1, 1] 13 3 (1 - 2 * normCDF (-2))).trend = .worsening ∧
    (rocofCompute [10, 1, 1, 1] 13 3 (1 - 2 * normCDF (-2))).betaHat =
      some ((([10, 1, 1, 1] : List ℚ).length : ℝ) / rocofLogSum [10, 1, 1, 1] 13 3) := by
  have h1 : ¬ (rocofU [10, 1, 1, 1] 13 3 < normPpf ((1 - (1 - 2 * normCDF (-2))) / 2)) := by
    rw [rocofU_cex, rocofZ_cex]
    norm_num
  have h2 : -normPpf ((1 - (1 - 2 * normCDF (-2))) / 2) < rocofU [10, 1, 1, 1] 13 3 := by
    rw [rocofU_cex, rocofZ_cex]
    norm_num
  rw [rocofCompute]
  rw [if_neg h1, if_pos h2]
  exact ⟨rfl, rfl⟩

lemma rocofLogSum_cex_pos : 0 < rocofLogSum [10, 1, 1, 1] 13 3 := by
  rw [rocofLogSum, cumsum_take_cex]
  have ha : (0:ℝ) < Real.log (((13:ℚ) : ℝ) / ((10:ℚ) : ℝ)) := by
    apply Real.log_pos
    push_cast
    norm_num
  have hb : (0:ℝ) < Real.log (((13:ℚ) : ℝ) / ((11:ℚ) : ℝ)) := by
    apply Real.log_pos
    push_cast
    norm_num
  have hc : (0:ℝ) < Real.log (((13:ℚ) : ℝ) / ((12:ℚ) : ℝ)) := by
    apply Real.log_pos
    push_cast
    norm_num
  simp only [List.map, List.sum_cons, List.sum_nil]
  linarith

example : True := trivial

lemma rocofRun_cex_ok :
    rocofRun (some [10, 1, 1, 1]) none (1 - 2 * normCDF (-2)) none =
      .ok (rocofCompute [10, 1, 1, 1] 13 3 (1 - 2 * normCDF (-2))) := by
  have h0 : 0 < 1 - 2 * normCDF (-2) := by linarith [normCDF_neg_two_lt]
  have h1 : 1 - 2 * normCDF (-2) < 1 := by linarith [normCDF_pos (-2)]
  have hci : ¬ (1 - 2 * normCDF (-2) ≤ 0 ∨ 1 ≤ 1 - 2 * normCDF (-2)) := by
    push_neg
    exact ⟨h0, h1⟩
  simp only [rocofRun]
  rw [if_neg (by decide)]
  rw [rocofMain.eq_def]
  rw [if_neg hci]
  rw [show ([10, 1, 1, 1] : List ℚ).sum = 13 from by norm_num]
  rfl

theorem C4_rocof_consistency_cex :
    (0 < 1 - 2 * normCDF (-2) ∧ 1 - 2 * normCDF (-2) < 1) ∧
      ∃ out, rocofRun (some [10, 1, 1, 1]) none (1 - 2 * normCDF (-2)) none = .ok out ∧
        out.trend = .worsening ∧ rocofN [10, 1, 1, 1] none = 3 ∧
        out.betaHat ≠ some ((3 : ℝ) / rocofLogSum [10, 1, 1, 1] 13 3) := by
  refine ⟨⟨by linarith [normCDF_neg_two_lt], by linarith [normCDF_pos (-2)]⟩,
    rocofCompute [10, 1, 1, 1] 13 3 (1 - 2 * normCDF (-2)), rocofRun_cex_ok,
    rocofTrend_cex.1, rfl, ?_⟩
  rw [rocofTrend_cex.2]
  intro h
  have h4 : (([10, 1, 1, 1] : List ℚ).length : ℝ) / rocofLogSum [10, 1, 1, 1] 13 3 =
      (3 : ℝ) / rocofLogSum [10, 1, 1, 1] 13 3 := Option.some.inj h
  have hS := rocofLogSum_cex_pos
  rw [div_eq_div_iff (by linarith) (by linarith)] at h4
  have : (([10, 1, 1, 1] : List ℚ).length : ℝ) = 3 := by
    have := mul_right_cancel₀ (by linarith : rocofLogSum [10, 1, 1, 1] 13 3 ≠ 0) h4
    exact this
  norm_num at this

lemma rocofRun_witness_ok :
    rocofRun (some [1, 1, 1, 1]) none (1/2) none =
      .ok (rocofCompute [1, 1, 1, 1] (([1, 1, 1, 1] : List ℚ).sum) 3 (1/2)) := by
  simp only [rocofRun]
  rw [if_neg (by decide)]
  rw [rocofMain.eq_def]
  rw [if_neg (by norm_num)]
  rfl

theorem C4_rocof_consistency_witness :
    ∃ out, rocofRun (some [1, 1, 1, 1]) none (1/2) none = .ok out ∧
      ((out.trend = .constant →
          out.rocofValue = some (((rocofN [1, 1, 1, 1] none : ℝ) + 1) /
            (([1, 1, 1, 1] : List ℚ).sum : ℝ)) ∧
            out.betaHat = none ∧ out.lambdaHat = none) ∧
        (out.trend ≠ .constant →
          out.rocofValue = none ∧
            out.betaHat = some ((([1, 1, 1, 1] : List ℚ).length : ℝ) /
              rocofLogSum [1, 1, 1, 1] (rocofT [1, 1, 1, 1] none) (rocofN [1, 1, 1, 1] none)) ∧
            out.lambdaHat = some ((([1, 1, 1, 1] : List ℚ).length : ℝ) /
              ((rocofT [1, 1, 1, 1] none : ℚ) : ℝ) ^
                ((([1, 1, 1, 1] : List ℚ).length : ℝ) /
                  rocofLogSum [1, 1, 1, 1] (rocofT [1, 1, 1, 1] none)
                    (rocofN [1, 1, 1, 1] none))))) :=
  ⟨_, rocofRun_witness_ok,
    C4_rocof_consistency (some [1, 1, 1, 1]) none (1/2) none [1, 1, 1, 1] _ rfl
      rocofRun_witness_ok⟩

/-- No path through `rocofMain` yields the mutually-exclusive-inputs error. -/
lemma rocofMain_ne_both (l : List ℚ) (CI : ℝ) (te : Option ℚ) :
    rocofMain l CI te ≠ .error .bothGiven := by
  intro h
  rw [rocofMain.eq_def] at h
  split_ifs at h
  · simp at h
  · cases te with
    | none => simp at h
    | some te' =>
      have h' : (if te' < l.sum then Except.error RocofErr.testEndSmall
          else Except.ok (rocofCompute l te' l.length CI)) = .error .bothGiven := h
      split_ifs at h' ; simp at h'

/-- C5 (amended).  The mutually-exclusive-inputs error is raised exactly when both
input lists are supplied.  When neither is supplied, the constructor does not raise
that error: after CI validation it fails at line 633 with an `UnboundLocalError`
(`ti` was never assigned).  When exactly one list is supplied, the
mutually-exclusive-inputs error is never raised. -/
theorem C5_rocof_input_errors (tbf ft : Option (List ℚ)) (CI : ℝ) (testEnd : Option ℚ) :
    (rocofRun tbf ft CI testEnd = .error .bothGiven ↔ tbf.isSome ∧ ft.isSome) ∧
      (tbf = none → ft = none → 0 < CI → CI < 1 →
        rocofRun tbf ft CI testEnd = .error .tiUnbound) := by
  constructor
  · cases tbf with
    | some l =>
      cases ft with
      | some l' => simp [rocofRun]
      | none =>
        simp only [rocofRun, Option.isSome_some, Option.isSome_none]
        constructor
        · intro h
          split_ifs at h
          · simp at h
          · exact absurd h (rocofMain_ne_both l CI testEnd)
        · rintro ⟨-, h⟩
          simp at h
    | none =>
      cases ft with
      | some l' =>
        simp only [rocofRun, Option.isSome_some, Option.isSome_none]
        constructor
        · intro h
          split_ifs at h
          · simp at h
          · exact absurd h (rocofMain_ne_both (toInterarrival l') CI testEnd)
        · rintro ⟨h, -⟩
          simp at h
      | none =>
        simp only [rocofRun, Option.isSome_none]
        constructor
        · intro h
          split_ifs at h <;> simp at h
        · rintro ⟨h, -⟩
          simp at h
  · rintro rfl rfl h1 h2
    simp only [rocofRun]
    rw [if_neg (by push_neg; exact ⟨h1, h2⟩)]

theorem C5_rocof_input_errors_witness :
    ((0:ℝ) < 1/2 ∧ (1/2:ℝ) < 1) ∧
      rocofRun none none (1/2) none = .error .tiUnbound :=
  ⟨⟨by norm_num, by norm_num⟩,
    (C5_rocof_input_errors none none (1/2) none).2 rfl rfl (by norm_num) (by norm_num)⟩

/-- C5 fails as stated: with neither input supplied (and a valid CI), the run fails
with the modelled `UnboundLocalError`, not with the mutually-exclusive-inputs
configuration error. -/
theorem C5_rocof_input_errors_cex :
    rocofRun none none (2/3) none = .error .tiUnbound ∧
      RocofErr.tiUnbound ≠ RocofErr.bothGiven := by
  constructor
  · simp only [rocofRun]
    rw [if_neg (by norm_num)]
  · simp

end Repairable
